import Mathlib

/-!
# Shallow embedding of the OpenCL reduction kernels in `reduce.c`

The source file defines four kernels: `reduceHybrid`, `reduceBarrier`,
`reduceSimd` and `getSimdWidth`, plus the helper `accumulateVolatile`.

Modelling conventions:

* Scalars (`double`) are modelled as exact rationals (`ℚ`): every finite
  double is a rational, and the properties under study concern exact sums
  and association order, not rounding.
* A group's local memory (`localSlice`) is a total function `ℕ → ℚ`.
  Slots the kernel never writes keep their arbitrary initial contents
  (the `init` argument), which models uninitialized local memory; reads
  outside the allocated `groupSize` slots likewise return the arbitrary
  ambient contents.
* Thread `i` of group `g` (with `get_local_size(0) = groupSize`) has
  `get_local_id(0) = i` and `get_global_id(0) = g * groupSize + i`.
* A barrier-delimited halving round is a simultaneous update of the
  slice: each updating thread reads the state left by the previous round.
  A lockstep (SIMD) round is also a simultaneous update: in hardware
  lockstep every lane's read of the round's instruction happens before
  any lane's write retires, which is exactly the discipline the unfenced
  code relies on.
* The `while` loops halve their counter, so they are written with an
  explicit `fuel` argument (any value `≥` the initial counter suffices);
  this keeps every definition computable by `decide`/`rfl`, and
  fuel-irrelevance lemmas below recover the loop semantics.
* `get_max_sub_group_size()` is the hardware lockstep width, passed in as
  a parameter `simdWidth`.
-/

/-- The helper `accumulateVolatile`:
`localSlice[targetIndex] += localSlice[sourceIndex]`. -/
def accumulateVolatile (sourceIndex targetIndex : ℕ) (localSlice : ℕ → ℚ) : ℕ → ℚ :=
  fun j =>
    if j = targetIndex then localSlice targetIndex + localSlice sourceIndex else localSlice j

/-- The guarded copy of input to local memory shared by all three kernels:
`if (globalIndex < inputLength) localSlice[i] = input[globalIndex];`
executed by every thread `i < groupSize` of group `g`. -/
def loadSlice (input : ℕ → ℚ) (inputLength groupSize g : ℕ) (init : ℕ → ℚ) : ℕ → ℚ :=
  fun i =>
    if i < groupSize ∧ g * groupSize + i < inputLength then input (g * groupSize + i) else init i

/-- One barrier-synchronized halving round of `reduceBarrier` (and of
`reduceHybrid`'s first loop): thread `i` executes
`if (i < activeThreadCount && globalIndex + activeThreadCount < inputLength)
localSlice[i] += localSlice[i + activeThreadCount];`, and the trailing
`barrier(CLK_LOCAL_MEM_FENCE)` makes all writes visible, so the round is a
simultaneous update of the slice. -/
def fencedRound (inputLength groupSize g activeThreadCount : ℕ) (s : ℕ → ℚ) : ℕ → ℚ :=
  fun i =>
    if i < groupSize ∧ i < activeThreadCount ∧
        g * groupSize + i + activeThreadCount < inputLength
    then s i + s (i + activeThreadCount)
    else s i

/-- One lockstep halving round of `reduceSimd`: every existing thread
`i < groupSize` executes
`if (globalIndex + activeThreadCount < inputLength)
localSlice[i] += localSlice[i + activeThreadCount];`
with no `i < activeThreadCount` guard; all lanes read before any lane's
write retires. -/
def simdRound (inputLength groupSize g activeThreadCount : ℕ) (s : ℕ → ℚ) : ℕ → ℚ :=
  fun i =>
    if i < groupSize ∧ g * groupSize + i + activeThreadCount < inputLength
    then s i + s (i + activeThreadCount)
    else s i

/-- One lockstep halving round of `reduceHybrid`'s second loop: only the
surviving threads `i < simdWidth` (the others returned at the phase
transition) execute
`if (globalIndex + activeThreadCount < inputLength)
accumulateVolatile(i + activeThreadCount, i, localSlice);`. -/
def lockstepRound (inputLength groupSize simdWidth g activeThreadCount : ℕ)
    (s : ℕ → ℚ) : ℕ → ℚ :=
  fun i =>
    if i < groupSize ∧ i < simdWidth ∧
        g * groupSize + i + activeThreadCount < inputLength
    then accumulateVolatile (i + activeThreadCount) i s i
    else s i

/-- The main loop of `reduceBarrier`:
`while (activeThreadCount > 0) { round; activeThreadCount >>= 1; }`,
with explicit fuel (first argument of the pair). -/
def reduceBarrierLoop (inputLength groupSize g : ℕ) :
    ℕ → ℕ → (ℕ → ℚ) → (ℕ → ℚ)
  | 0, _, s => s
  | _ + 1, 0, s => s
  | fuel + 1, ac + 1, s =>
      reduceBarrierLoop inputLength groupSize g fuel ((ac + 1) / 2)
        (fencedRound inputLength groupSize g (ac + 1) s)

/-- The main loop of `reduceSimd`, same halving schedule with unfenced
lockstep rounds. -/
def reduceSimdLoop (inputLength groupSize g : ℕ) :
    ℕ → ℕ → (ℕ → ℚ) → (ℕ → ℚ)
  | 0, _, s => s
  | _ + 1, 0, s => s
  | fuel + 1, ac + 1, s =>
      reduceSimdLoop inputLength groupSize g fuel ((ac + 1) / 2)
        (simdRound inputLength groupSize g (ac + 1) s)

/-- The first loop of `reduceHybrid`:
`while (activeThreadCount > simdWidth) { fenced round; activeThreadCount >>= 1; }`.
Returns the slice together with the counter value at loop exit. -/
def hybridFencedLoop (inputLength groupSize simdWidth g : ℕ) :
    ℕ → ℕ → (ℕ → ℚ) → ((ℕ → ℚ) × ℕ)
  | 0, ac, s => (s, ac)
  | fuel + 1, ac, s =>
      if ac ≤ simdWidth then (s, ac)
      else
        hybridFencedLoop inputLength groupSize simdWidth g fuel (ac / 2)
          (fencedRound inputLength groupSize g ac s)

/-- The second loop of `reduceHybrid`:
`while (activeThreadCount > 0) { lockstep round; activeThreadCount >>= 1; }`,
executed by the surviving threads `i < simdWidth`. -/
def hybridLockstepLoop (inputLength groupSize simdWidth g : ℕ) :
    ℕ → ℕ → (ℕ → ℚ) → (ℕ → ℚ)
  | 0, _, s => s
  | _ + 1, 0, s => s
  | fuel + 1, ac + 1, s =>
      hybridLockstepLoop inputLength groupSize simdWidth g fuel ((ac + 1) / 2)
        (lockstepRound inputLength groupSize simdWidth g (ac + 1) s)

/-- Final local-memory state of group `g` under `reduceBarrier`. -/
def reduceBarrierSlice (input : ℕ → ℚ) (inputLength groupSize g : ℕ) (init : ℕ → ℚ) :
    ℕ → ℚ :=
  reduceBarrierLoop inputLength groupSize g groupSize (groupSize / 2)
    (loadSlice input inputLength groupSize g init)

/-- The value group `g` of `reduceBarrier` stores into `results[g]`
(thread 0 runs `results[get_group_id(0)] = localSlice[0];`). -/
def reduceBarrierGroup (input : ℕ → ℚ) (inputLength groupSize g : ℕ) (init : ℕ → ℚ) : ℚ :=
  reduceBarrierSlice input inputLength groupSize g init 0

/-- Final local-memory state of group `g` under `reduceSimd`. -/
def reduceSimdSlice (input : ℕ → ℚ) (inputLength groupSize g : ℕ) (init : ℕ → ℚ) :
    ℕ → ℚ :=
  reduceSimdLoop inputLength groupSize g groupSize (groupSize / 2)
    (loadSlice input inputLength groupSize g init)

/-- The value group `g` of `reduceSimd` stores into `results[g]`
(every thread runs `results[get_group_id(0)] = localSlice[0];`, all storing
this same final value). -/
def reduceSimdGroup (input : ℕ → ℚ) (inputLength groupSize g : ℕ) (init : ℕ → ℚ) : ℚ :=
  reduceSimdSlice input inputLength groupSize g init 0

/-- Final local-memory state of group `g` under `reduceHybrid`:
the fenced loop runs from `groupSize / 2` down to the first counter value
`≤ simdWidth`, then the lockstep loop finishes the halving. -/
def reduceHybridSlice (input : ℕ → ℚ) (inputLength groupSize simdWidth g : ℕ)
    (init : ℕ → ℚ) : ℕ → ℚ :=
  let p := hybridFencedLoop inputLength groupSize simdWidth g groupSize (groupSize / 2)
    (loadSlice input inputLength groupSize g init)
  hybridLockstepLoop inputLength groupSize simdWidth g groupSize p.2 p.1

/-- The value group `g` of `reduceHybrid` stores into `results[g]`
(thread 0, having survived the transition when `0 < simdWidth`, runs
`results[get_group_id(0)] = localSlice[0];`). -/
def reduceHybridGroup (input : ℕ → ℚ) (inputLength groupSize simdWidth g : ℕ)
    (init : ℕ → ℚ) : ℚ :=
  reduceHybridSlice input inputLength groupSize simdWidth g init 0

/-- One dispatch of `reduceBarrier` over `numGroups` groups: group `r`'s
thread 0 overwrites `results[r]` with the group's reduced value (it exists
whenever the group is launched and has at least one thread); other slots of
the results buffer keep their previous contents. -/
def reduceBarrier (input : ℕ → ℚ) (inputLength groupSize numGroups : ℕ)
    (initL : ℕ → ℕ → ℚ) (results : ℕ → ℚ) : ℕ → ℚ :=
  fun r =>
    if r < numGroups ∧ 0 < groupSize
    then reduceBarrierGroup input inputLength groupSize r (initL r)
    else results r

/-- One dispatch of `reduceSimd`: every thread of launched group `r`
stores the group's final slot-0 value to `results[r]`. -/
def reduceSimd (input : ℕ → ℚ) (inputLength groupSize numGroups : ℕ)
    (initL : ℕ → ℕ → ℚ) (results : ℕ → ℚ) : ℕ → ℚ :=
  fun r =>
    if r < numGroups ∧ 0 < groupSize
    then reduceSimdGroup input inputLength groupSize r (initL r)
    else results r

/-- One dispatch of `reduceHybrid`: thread 0 of launched group `r` stores
the group's final slot-0 value, unless it already returned at the phase
transition (`simdWidth = 0`). -/
def reduceHybrid (input : ℕ → ℚ) (inputLength groupSize simdWidth numGroups : ℕ)
    (initL : ℕ → ℕ → ℚ) (results : ℕ → ℚ) : ℕ → ℚ :=
  fun r =>
    if r < numGroups ∧ 0 < groupSize ∧ 0 < simdWidth
    then reduceHybridGroup input inputLength groupSize simdWidth r (initL r)
    else results r

/-- The `getSimdWidth` kernel: thread `i` writes the lockstep width `w`
to output slot 0 iff `get_local_id(0) == 0`; the result is the write this
thread performs (`none` = no observable action). -/
def getSimdWidth (w : ℕ) (i : ℕ) : Option (ℕ × ℕ) :=
  if i = 0 then some (0, w) else none

/-!
## Event traces

For the safety and invariant claims we also record, per group, the ordered
list of observable memory/synchronization events each kernel issues:
which threads load, which combines run with which counter value, where the
barriers sit, which threads return early, and which threads store to the
results buffer.  Within a round, events are listed in thread order; the
rounds follow the source's program order.
-/

/-- An observable per-group event.
`load i`: thread `i` copies its input element into scratch slot `i`;
`comb i ac`: thread `i` adds scratch slot `i + ac` into slot `i` while the
counter is `ac`; `barrierEv`: the whole group passes a local-memory fence;
`exitEv i`: thread `i` returns at `reduceHybrid`'s phase transition;
`outWrite i`: thread `i` stores scratch slot 0 to `results[groupId]`. -/
inductive GEvent where
  | load : ℕ → GEvent
  | comb : ℕ → ℕ → GEvent
  | barrierEv : GEvent
  | exitEv : ℕ → GEvent
  | outWrite : ℕ → GEvent
deriving DecidableEq

/-- The successive values of `activeThreadCount`:
`while (ac > 0) { ...; ac >>= 1 }`, with fuel. -/
def halveChain : ℕ → ℕ → List ℕ
  | 0, _ => []
  | _ + 1, 0 => []
  | fuel + 1, ac + 1 => (ac + 1) :: halveChain fuel ((ac + 1) / 2)

/-- The counter values a halving loop starting at `groupSize / 2` visits. -/
def acChain (groupSize : ℕ) : List ℕ :=
  halveChain groupSize (groupSize / 2)

/-- Load events of one group: thread `i` loads iff its global index is in
range (`if (globalIndex < inputLength) localSlice[i] = input[globalIndex];`). -/
def loadEvents (inputLength groupSize g : ℕ) : List GEvent :=
  (List.range groupSize).filterMap fun i =>
    if g * groupSize + i < inputLength then some (.load i) else none

/-- Combine events of one fenced round, followed by the round's barrier. -/
def fencedRoundEvents (inputLength groupSize g ac : ℕ) : List GEvent :=
  ((List.range groupSize).filterMap fun i =>
    if i < ac ∧ g * groupSize + i + ac < inputLength then some (.comb i ac) else none)
    ++ [.barrierEv]

/-- Combine events of one `reduceSimd` round (no `i < ac` guard, no barrier). -/
def simdRoundEvents (inputLength groupSize g ac : ℕ) : List GEvent :=
  (List.range groupSize).filterMap fun i =>
    if g * groupSize + i + ac < inputLength then some (.comb i ac) else none

/-- Combine events of one `reduceHybrid` second-loop round: only surviving
threads `i < simdWidth` participate, no barrier. -/
def lockstepRoundEvents (inputLength groupSize simdWidth g ac : ℕ) : List GEvent :=
  (List.range groupSize).filterMap fun i =>
    if i < simdWidth ∧ g * groupSize + i + ac < inputLength then some (.comb i ac) else none

/-- Event trace of group `g` under `reduceBarrier`: guarded loads, the
post-copy barrier, the fenced rounds, and thread 0's store of
`localSlice[0]` to `results[g]`. -/
def barrierTrace (inputLength groupSize g : ℕ) : List GEvent :=
  loadEvents inputLength groupSize g ++ [.barrierEv]
    ++ (acChain groupSize).flatMap (fencedRoundEvents inputLength groupSize g)
    ++ (if 0 < groupSize then [.outWrite 0] else [])

/-- Event trace of group `g` under `reduceSimd`: guarded loads, unfenced
rounds, and the unconditional final store executed by every thread. -/
def simdTrace (inputLength groupSize g : ℕ) : List GEvent :=
  loadEvents inputLength groupSize g
    ++ (acChain groupSize).flatMap (simdRoundEvents inputLength groupSize g)
    ++ (List.range groupSize).map .outWrite

/-- Event trace of group `g` under `reduceHybrid`: guarded loads, the
post-copy barrier, the fenced rounds while the counter exceeds
`simdWidth`, the early returns of threads `i ≥ simdWidth`, the unfenced
rounds, and thread 0's store (it survives only when `0 < simdWidth`). -/
def hybridTrace (inputLength groupSize simdWidth g : ℕ) : List GEvent :=
  loadEvents inputLength groupSize g ++ [.barrierEv]
    ++ ((acChain groupSize).filter (fun ac => simdWidth < ac)).flatMap
        (fencedRoundEvents inputLength groupSize g)
    ++ ((List.range groupSize).filterMap fun i =>
        if simdWidth ≤ i then some (.exitEv i) else none)
    ++ ((acChain groupSize).filter (fun ac => ac ≤ simdWidth)).flatMap
        (lockstepRoundEvents inputLength groupSize simdWidth g)
    ++ (if 0 < simdWidth ∧ 0 < groupSize then [.outWrite 0] else [])

/-- Spec-side contribution of tile element `j` of group `g`: the input
element when its global index is in range, zero otherwise. -/
def tileVal (input : ℕ → ℚ) (inputLength groupSize g j : ℕ) : ℚ :=
  if g * groupSize + j < inputLength then input (g * groupSize + j) else 0

/-!
## Loop unfolding and fuel irrelevance
-/

lemma reduceBarrierLoop_zero (inputLength groupSize g fuel : ℕ) (s : ℕ → ℚ) :
    reduceBarrierLoop inputLength groupSize g fuel 0 s = s := by
  cases fuel <;> rfl

lemma reduceSimdLoop_zero (inputLength groupSize g fuel : ℕ) (s : ℕ → ℚ) :
    reduceSimdLoop inputLength groupSize g fuel 0 s = s := by
  cases fuel <;> rfl

lemma hybridLockstepLoop_zero (inputLength groupSize simdWidth g fuel : ℕ) (s : ℕ → ℚ) :
    hybridLockstepLoop inputLength groupSize simdWidth g fuel 0 s = s := by
  cases fuel <;> rfl

lemma reduceBarrierLoop_succ (inputLength groupSize g fuel ac : ℕ) (s : ℕ → ℚ)
    (h : 0 < ac) :
    reduceBarrierLoop inputLength groupSize g (fuel + 1) ac s =
      reduceBarrierLoop inputLength groupSize g fuel (ac / 2)
        (fencedRound inputLength groupSize g ac s) := by
  cases ac with
  | zero => omega
  | succ a => rfl

lemma reduceSimdLoop_succ (inputLength groupSize g fuel ac : ℕ) (s : ℕ → ℚ)
    (h : 0 < ac) :
    reduceSimdLoop inputLength groupSize g (fuel + 1) ac s =
      reduceSimdLoop inputLength groupSize g fuel (ac / 2)
        (simdRound inputLength groupSize g ac s) := by
  cases ac with
  | zero => omega
  | succ a => rfl

lemma hybridLockstepLoop_succ (inputLength groupSize simdWidth g fuel ac : ℕ) (s : ℕ → ℚ)
    (h : 0 < ac) :
    hybridLockstepLoop inputLength groupSize simdWidth g (fuel + 1) ac s =
      hybridLockstepLoop inputLength groupSize simdWidth g fuel (ac / 2)
        (lockstepRound inputLength groupSize simdWidth g ac s) := by
  cases ac with
  | zero => omega
  | succ a => rfl

lemma reduceBarrierLoop_fuel (inputLength groupSize g : ℕ) :
    ∀ f1 f2 ac : ℕ, ∀ s : ℕ → ℚ, ac ≤ f1 → ac ≤ f2 →
      reduceBarrierLoop inputLength groupSize g f1 ac s =
        reduceBarrierLoop inputLength groupSize g f2 ac s := by
  intro f1
  induction f1 with
  | zero =>
    intro f2 ac s h1 h2
    have hac : ac = 0 := by omega
    subst hac
    rw [reduceBarrierLoop_zero, reduceBarrierLoop_zero]
  | succ f ih =>
    intro f2 ac s h1 h2
    cases ac with
    | zero => rw [reduceBarrierLoop_zero, reduceBarrierLoop_zero]
    | succ a =>
      cases f2 with
      | zero => omega
      | succ f2' =>
        rw [reduceBarrierLoop_succ _ _ _ _ _ _ (by omega),
          reduceBarrierLoop_succ _ _ _ _ _ _ (by omega)]
        exact ih f2' ((a + 1) / 2) _ (by omega) (by omega)

lemma hybridLockstepLoop_fuel (inputLength groupSize simdWidth g : ℕ) :
    ∀ f1 f2 ac : ℕ, ∀ s : ℕ → ℚ, ac ≤ f1 → ac ≤ f2 →
      hybridLockstepLoop inputLength groupSize simdWidth g f1 ac s =
        hybridLockstepLoop inputLength groupSize simdWidth g f2 ac s := by
  intro f1
  induction f1 with
  | zero =>
    intro f2 ac s h1 h2
    have hac : ac = 0 := by omega
    subst hac
    rw [hybridLockstepLoop_zero, hybridLockstepLoop_zero]
  | succ f ih =>
    intro f2 ac s h1 h2
    cases ac with
    | zero => rw [hybridLockstepLoop_zero, hybridLockstepLoop_zero]
    | succ a =>
      cases f2 with
      | zero => omega
      | succ f2' =>
        rw [hybridLockstepLoop_succ _ _ _ _ _ _ _ (by omega),
          hybridLockstepLoop_succ _ _ _ _ _ _ _ (by omega)]
        exact ih f2' ((a + 1) / 2) _ (by omega) (by omega)

/-!
## The three variants agree on slot 0

The unfenced rounds of `reduceSimd` and of `reduceHybrid`'s second loop
lack the `i < activeThreadCount` guard, so threads `i ≥ activeThreadCount`
may pollute slots `≥ activeThreadCount`; the lemmas below show those slots
never feed slot 0 again, so slot 0 evolves exactly as under
`reduceBarrier`.
-/

lemma reduceBarrierLoop_agree_simd (inputLength groupSize g : ℕ) :
    ∀ fuel ac : ℕ, ∀ s s' : ℕ → ℚ, 2 * ac ≤ groupSize →
      (∀ j, j < 2 * ac ∨ j = 0 → s j = s' j) →
      reduceBarrierLoop inputLength groupSize g fuel ac s 0 =
        reduceSimdLoop inputLength groupSize g fuel ac s' 0 := by
  intro fuel
  induction fuel with
  | zero => intro ac s s' hG hss; exact hss 0 (Or.inr rfl)
  | succ f ih =>
    intro ac s s' hG hss
    cases ac with
    | zero =>
      rw [reduceBarrierLoop_zero, reduceSimdLoop_zero]
      exact hss 0 (Or.inr rfl)
    | succ a =>
      rw [reduceBarrierLoop_succ _ _ _ _ _ _ (by omega),
        reduceSimdLoop_succ _ _ _ _ _ _ (by omega)]
      apply ih ((a + 1) / 2)
      · omega
      · intro j hj
        have hja : j < a + 1 := by omega
        have hjG : j < groupSize := by omega
        have h1 : s j = s' j := hss j (by omega)
        have h2 : s (j + (a + 1)) = s' (j + (a + 1)) := hss (j + (a + 1)) (by omega)
        by_cases hb : g * groupSize + j + (a + 1) < inputLength
        · simp [fencedRound, simdRound, hja, hjG, hb, h1, h2]
        · simp [fencedRound, simdRound, hja, hjG, hb, h1]

lemma reduceBarrierLoop_agree_lockstep (inputLength groupSize simdWidth g : ℕ) :
    ∀ fuel ac : ℕ, ∀ s s' : ℕ → ℚ, 2 * ac ≤ groupSize → ac ≤ simdWidth →
      (∀ j, j < 2 * ac ∨ j = 0 → s j = s' j) →
      reduceBarrierLoop inputLength groupSize g fuel ac s 0 =
        hybridLockstepLoop inputLength groupSize simdWidth g fuel ac s' 0 := by
  intro fuel
  induction fuel with
  | zero => intro ac s s' hG hW hss; exact hss 0 (Or.inr rfl)
  | succ f ih =>
    intro ac s s' hG hW hss
    cases ac with
    | zero =>
      rw [reduceBarrierLoop_zero, hybridLockstepLoop_zero]
      exact hss 0 (Or.inr rfl)
    | succ a =>
      rw [reduceBarrierLoop_succ _ _ _ _ _ _ (by omega),
        hybridLockstepLoop_succ _ _ _ _ _ _ _ (by omega)]
      apply ih ((a + 1) / 2)
      · omega
      · omega
      · intro j hj
        have hja : j < a + 1 := by omega
        have hjG : j < groupSize := by omega
        have hjW : j < simdWidth := by omega
        have h1 : s j = s' j := hss j (by omega)
        have h2 : s (j + (a + 1)) = s' (j + (a + 1)) := hss (j + (a + 1)) (by omega)
        by_cases hb : g * groupSize + j + (a + 1) < inputLength
        · simp [fencedRound, lockstepRound, accumulateVolatile, hja, hjG, hjW, hb, h1, h2]
        · simp [fencedRound, lockstepRound, accumulateVolatile, hja, hjG, hjW, hb, h1]

lemma hybridFencedLoop_exit (inputLength groupSize simdWidth g : ℕ) :
    ∀ fuel ac : ℕ, ∀ s : ℕ → ℚ, ac ≤ fuel →
      (hybridFencedLoop inputLength groupSize simdWidth g fuel ac s).2 ≤ simdWidth ∧
        (hybridFencedLoop inputLength groupSize simdWidth g fuel ac s).2 ≤ ac := by
  intro fuel
  induction fuel with
  | zero =>
    intro ac s h
    have hac : ac = 0 := by omega
    subst hac
    simp [hybridFencedLoop]
  | succ f ih =>
    intro ac s h
    by_cases hW : ac ≤ simdWidth
    · simp [hybridFencedLoop, hW]
    · rw [show hybridFencedLoop inputLength groupSize simdWidth g (f + 1) ac s =
          hybridFencedLoop inputLength groupSize simdWidth g f (ac / 2)
            (fencedRound inputLength groupSize g ac s) by
        simp [hybridFencedLoop, hW]]
      have h2 := ih (ac / 2) (fencedRound inputLength groupSize g ac s) (by omega)
      exact ⟨h2.1, by omega⟩

lemma reduceBarrierLoop_decompose (inputLength groupSize simdWidth g : ℕ) :
    ∀ fuel ac : ℕ, ∀ s : ℕ → ℚ, ac ≤ fuel →
      reduceBarrierLoop inputLength groupSize g fuel ac s =
        reduceBarrierLoop inputLength groupSize g
          (hybridFencedLoop inputLength groupSize simdWidth g fuel ac s).2
          (hybridFencedLoop inputLength groupSize simdWidth g fuel ac s).2
          (hybridFencedLoop inputLength groupSize simdWidth g fuel ac s).1 := by
  intro fuel
  induction fuel with
  | zero =>
    intro ac s h
    have hac : ac = 0 := by omega
    subst hac
    simp [hybridFencedLoop, reduceBarrierLoop_zero]
  | succ f ih =>
    intro ac s h
    by_cases hW : ac ≤ simdWidth
    · rw [show hybridFencedLoop inputLength groupSize simdWidth g (f + 1) ac s = (s, ac) by
        simp [hybridFencedLoop, hW]]
      exact reduceBarrierLoop_fuel inputLength groupSize g (f + 1) ac ac s h (le_refl ac)
    · rw [show hybridFencedLoop inputLength groupSize simdWidth g (f + 1) ac s =
          hybridFencedLoop inputLength groupSize simdWidth g f (ac / 2)
            (fencedRound inputLength groupSize g ac s) by
        simp [hybridFencedLoop, hW]]
      rw [reduceBarrierLoop_succ _ _ _ _ _ _ (by omega)]
      exact ih (ac / 2) _ (by omega)

lemma reduceSimdGroup_eq_barrier (input : ℕ → ℚ) (inputLength groupSize g : ℕ)
    (init : ℕ → ℚ) :
    reduceSimdGroup input inputLength groupSize g init =
      reduceBarrierGroup input inputLength groupSize g init := by
  unfold reduceSimdGroup reduceBarrierGroup reduceSimdSlice reduceBarrierSlice
  exact (reduceBarrierLoop_agree_simd inputLength groupSize g groupSize (groupSize / 2)
    _ _ (by omega) (fun j _ => rfl)).symm

lemma hybridTail_eq_barrier (inputLength groupSize simdWidth g : ℕ) (s : ℕ → ℚ)
    (ac : ℕ) (hacW : ac ≤ simdWidth) (hacG : 2 * ac ≤ groupSize) :
    hybridLockstepLoop inputLength groupSize simdWidth g groupSize ac s 0 =
      reduceBarrierLoop inputLength groupSize g ac ac s 0 := by
  rw [reduceBarrierLoop_agree_lockstep inputLength groupSize simdWidth g ac ac s s hacG hacW
    (fun j _ => rfl)]
  exact congrFun (hybridLockstepLoop_fuel inputLength groupSize simdWidth g groupSize ac ac s
    (by omega) (le_refl ac)) 0

lemma reduceHybridGroup_eq_barrier (input : ℕ → ℚ) (inputLength groupSize simdWidth g : ℕ)
    (init : ℕ → ℚ) :
    reduceHybridGroup input inputLength groupSize simdWidth g init =
      reduceBarrierGroup input inputLength groupSize g init := by
  unfold reduceHybridGroup reduceBarrierGroup reduceHybridSlice reduceBarrierSlice
  show hybridLockstepLoop inputLength groupSize simdWidth g groupSize
      (hybridFencedLoop inputLength groupSize simdWidth g groupSize (groupSize / 2)
        (loadSlice input inputLength groupSize g init)).2
      (hybridFencedLoop inputLength groupSize simdWidth g groupSize (groupSize / 2)
        (loadSlice input inputLength groupSize g init)).1 0 =
    reduceBarrierLoop inputLength groupSize g groupSize (groupSize / 2)
      (loadSlice input inputLength groupSize g init) 0
  rw [reduceBarrierLoop_decompose inputLength groupSize simdWidth g groupSize (groupSize / 2)
    (loadSlice input inputLength groupSize g init) (by omega)]
  obtain ⟨h1, h2⟩ := hybridFencedLoop_exit inputLength groupSize simdWidth g groupSize
    (groupSize / 2) (loadSlice input inputLength groupSize g init) (by omega)
  exact hybridTail_eq_barrier inputLength groupSize simdWidth g _ _ h1 (by omega)

/-!
## Tile-sum correctness of the halving loop for power-of-two group sizes
-/

lemma sum_range_two_mul (c : ℕ) (f : ℕ → ℚ) :
    ∑ t ∈ Finset.range (2 * c), f t =
      ∑ u ∈ Finset.range c, (f (2 * u) + f (2 * u + 1)) := by
  induction c with
  | zero => simp
  | succ n ih =>
    have h2 : 2 * (n + 1) = 2 * n + 1 + 1 := by ring
    rw [h2, Finset.sum_range_succ, Finset.sum_range_succ, ih, Finset.sum_range_succ]
    ring

lemma reduceBarrierLoop_pow2 (input : ℕ → ℚ) (inputLength groupSize g : ℕ) :
    ∀ e : ℕ, ∀ c : ℕ, ∀ s : ℕ → ℚ, ∀ fuel : ℕ,
      2 ^ (e + 1) * c = groupSize → g * groupSize < inputLength → 2 ^ e ≤ fuel →
      (∀ j, j < 2 ^ (e + 1) → g * groupSize + j < inputLength →
        s j = ∑ t ∈ Finset.range c,
          tileVal input inputLength groupSize g (j + 2 ^ (e + 1) * t)) →
      reduceBarrierLoop inputLength groupSize g fuel (2 ^ e) s 0 =
        ∑ t ∈ Finset.range groupSize, tileVal input inputLength groupSize g t := by
  intro e
  induction e with
  | zero =>
    intro c s fuel hGc hg hfuel H
    cases fuel with
    | zero => omega
    | succ f =>
      have h1 : (2 : ℕ) ^ 0 = 1 := by norm_num
      rw [h1, reduceBarrierLoop_succ _ _ _ _ _ _ (by omega)]
      have h12 : 1 / 2 = 0 := by norm_num
      rw [h12, reduceBarrierLoop_zero]
      have hG2 : groupSize = 2 * c := by omega
      have hs0 : s 0 = ∑ t ∈ Finset.range c,
          tileVal input inputLength groupSize g (0 + 2 ^ (0 + 1) * t) :=
        H 0 (by norm_num) (by omega)
      subst hG2
      rcases Nat.eq_zero_or_pos c with hc | hc
      · subst hc
        simp only [fencedRound]
        have : ¬ (0 < 2 * 0 ∧ 0 < 1 ∧ g * (2 * 0) + 0 + 1 < inputLength) := by omega
        rw [if_neg this, hs0]
        simp
      · rw [sum_range_two_mul c (tileVal input inputLength (2 * c) g)]
        simp only [fencedRound]
        by_cases hb : g * (2 * c) + 0 + 1 < inputLength
        · rw [if_pos (by omega)]
          have hs1 : s (0 + 1) = ∑ t ∈ Finset.range c,
              tileVal input inputLength (2 * c) g (0 + 1 + 2 ^ (0 + 1) * t) :=
            H (0 + 1) (by norm_num) (by omega)
          rw [hs0, hs1, ← Finset.sum_add_distrib]
          apply Finset.sum_congr rfl
          intro u _
          have e1 : 0 + 2 ^ (0 + 1) * u = 2 * u := by norm_num
          have e2 : 0 + 1 + 2 ^ (0 + 1) * u = 2 * u + 1 := by ring
          rw [e1, e2]
        · rw [if_neg (by omega), hs0]
          have hzero : ∀ u ∈ Finset.range c,
              tileVal input inputLength (2 * c) g (2 * u + 1) = 0 := by
            intro u _
            unfold tileVal
            rw [if_neg (by omega)]
          calc ∑ t ∈ Finset.range c,
                tileVal input inputLength (2 * c) g (0 + 2 ^ (0 + 1) * t)
              = ∑ u ∈ Finset.range c, tileVal input inputLength (2 * c) g (2 * u) := by
                apply Finset.sum_congr rfl
                intro u _
                have e1 : 0 + 2 ^ (0 + 1) * u = 2 * u := by norm_num
                rw [e1]
            _ = ∑ u ∈ Finset.range c, (tileVal input inputLength (2 * c) g (2 * u)
                  + tileVal input inputLength (2 * c) g (2 * u + 1)) := by
                apply Finset.sum_congr rfl
                intro u hu
                rw [hzero u hu, add_zero]
  | succ e ih =>
    intro c s fuel hGc hg hfuel H
    have hpow1 : (2 : ℕ) ^ (e + 1) = 2 * 2 ^ e := by rw [pow_succ]; ring
    have hpow2 : (2 : ℕ) ^ (e + 1 + 1) = 2 * 2 ^ (e + 1) := by rw [pow_succ]; ring
    have hpos : (1 : ℕ) ≤ 2 ^ e := Nat.one_le_two_pow
    cases fuel with
    | zero => omega
    | succ f =>
      rw [reduceBarrierLoop_succ _ _ _ _ _ _ (by omega)]
      have hhalf : 2 ^ (e + 1) / 2 = 2 ^ e := by omega
      rw [hhalf]
      apply ih (2 * c) (fencedRound inputLength groupSize g (2 ^ (e + 1)) s) f
      · calc 2 ^ (e + 1) * (2 * c) = 2 ^ (e + 1 + 1) * c := by rw [hpow2]; ring
          _ = groupSize := hGc
      · exact hg
      · omega
      · intro j hj hjload
        rcases Nat.eq_zero_or_pos c with hc | hc
        · subst hc
          have hG0 : groupSize = 0 := by omega
          simp only [fencedRound]
          rw [if_neg (by omega)]
          have := H j (by omega) hjload
          simpa using this
        · have hjG : j < groupSize := by
            have : 2 ^ (e + 1) < 2 ^ (e + 1 + 1) * c := by
              calc 2 ^ (e + 1) < 2 ^ (e + 1 + 1) := by omega
                _ ≤ 2 ^ (e + 1 + 1) * c := by
                    calc 2 ^ (e + 1 + 1) = 2 ^ (e + 1 + 1) * 1 := by ring
                      _ ≤ 2 ^ (e + 1 + 1) * c := Nat.mul_le_mul_left _ hc
            omega
          have hHs : s j = ∑ t ∈ Finset.range c,
              tileVal input inputLength groupSize g (j + 2 ^ (e + 1 + 1) * t) :=
            H j (by omega) hjload
          rw [sum_range_two_mul c
            (fun t => tileVal input inputLength groupSize g (j + 2 ^ (e + 1) * t))]
          simp only [fencedRound]
          by_cases hb : g * groupSize + j + 2 ^ (e + 1) < inputLength
          · rw [if_pos ⟨hjG, hj, hb⟩]
            have hHs2 : s (j + 2 ^ (e + 1)) = ∑ t ∈ Finset.range c,
                tileVal input inputLength groupSize g
                  (j + 2 ^ (e + 1) + 2 ^ (e + 1 + 1) * t) :=
              H (j + 2 ^ (e + 1)) (by omega) (by omega)
            rw [hHs, hHs2, ← Finset.sum_add_distrib]
            apply Finset.sum_congr rfl
            intro u _
            have e1 : j + 2 ^ (e + 1 + 1) * u = j + 2 ^ (e + 1) * (2 * u) := by
              rw [hpow2]; ring
            have e2 : j + 2 ^ (e + 1) + 2 ^ (e + 1 + 1) * u
                = j + 2 ^ (e + 1) * (2 * u + 1) := by rw [hpow2]; ring
            rw [e1, e2]
          · rw [if_neg (by omega), hHs]
            have hzero : ∀ u ∈ Finset.range c,
                tileVal input inputLength groupSize g
                  (j + 2 ^ (e + 1) * (2 * u + 1)) = 0 := by
              intro u _
              unfold tileVal
              have harg : j + 2 ^ (e + 1) * (2 * u + 1)
                  = j + 2 ^ (e + 1) + 2 ^ (e + 1 + 1) * u := by rw [hpow2]; ring
              rw [harg, if_neg (by omega)]
            calc ∑ t ∈ Finset.range c,
                  tileVal input inputLength groupSize g (j + 2 ^ (e + 1 + 1) * t)
                = ∑ u ∈ Finset.range c,
                    tileVal input inputLength groupSize g (j + 2 ^ (e + 1) * (2 * u)) := by
                  apply Finset.sum_congr rfl
                  intro u _
                  have e1 : j + 2 ^ (e + 1 + 1) * u = j + 2 ^ (e + 1) * (2 * u) := by
                    rw [hpow2]; ring
                  rw [e1]
              _ = ∑ u ∈ Finset.range c,
                    (tileVal input inputLength groupSize g (j + 2 ^ (e + 1) * (2 * u))
                      + tileVal input inputLength groupSize g
                          (j + 2 ^ (e + 1) * (2 * u + 1))) := by
                  apply Finset.sum_congr rfl
                  intro u hu
                  rw [hzero u hu, add_zero]

lemma reduceBarrierGroup_pow2 (input : ℕ → ℚ) (inputLength k g : ℕ) (init : ℕ → ℚ)
    (hg : g * 2 ^ k < inputLength) :
    reduceBarrierGroup input inputLength (2 ^ k) g init =
      ∑ j ∈ Finset.range (2 ^ k), tileVal input inputLength (2 ^ k) g j := by
  unfold reduceBarrierGroup reduceBarrierSlice
  cases k with
  | zero =>
    have h1 : (2 : ℕ) ^ 0 = 1 := by norm_num
    rw [h1] at hg ⊢
    have h12 : 1 / 2 = 0 := by norm_num
    rw [h12, reduceBarrierLoop_zero]
    unfold loadSlice tileVal
    rw [Finset.sum_range_one, if_pos ⟨by omega, by omega⟩, if_pos (by omega)]
  | succ e =>
    have hhalf : 2 ^ (e + 1) / 2 = 2 ^ e := by
      have hpow1 : (2 : ℕ) ^ (e + 1) = 2 * 2 ^ e := by rw [pow_succ]; ring
      omega
    rw [hhalf]
    apply reduceBarrierLoop_pow2 input inputLength (2 ^ (e + 1)) g e 1
    · rw [mul_one]
    · exact hg
    · exact Nat.pow_le_pow_right (by omega) (by omega)
    · intro j hj hload
      rw [Finset.sum_range_one, mul_zero, add_zero]
      unfold loadSlice tileVal
      rw [if_pos ⟨hj, hload⟩, if_pos hload]

/-- The in-range portion sum form: a group whose tile extends past the end
of the input reduces to the sum of the elements before `inputLength`. -/
lemma tileVal_sum_eq_portion (input : ℕ → ℚ) (inputLength groupSize g : ℕ)
    (hg : g * groupSize < inputLength) :
    ∑ j ∈ Finset.range groupSize, tileVal input inputLength groupSize g j =
      ∑ j ∈ Finset.range (min groupSize (inputLength - g * groupSize)),
        input (g * groupSize + j) := by
  calc ∑ j ∈ Finset.range groupSize, tileVal input inputLength groupSize g j
      = ∑ j ∈ Finset.range (min groupSize (inputLength - g * groupSize)),
          tileVal input inputLength groupSize g j := by
        refine (Finset.sum_subset (Finset.range_subset.mpr (Nat.min_le_left _ _)) ?_).symm
        intro j hj hj2
        rw [Finset.mem_range] at hj
        rw [Finset.mem_range] at hj2
        unfold tileVal
        rw [if_neg (by omega)]
    _ = ∑ j ∈ Finset.range (min groupSize (inputLength - g * groupSize)),
          input (g * groupSize + j) := by
        apply Finset.sum_congr rfl
        intro j hj
        rw [Finset.mem_range] at hj
        unfold tileVal
        rw [if_pos (by omega)]

lemma sum_range_mul_tiles (f : ℕ → ℚ) (numGroups groupSize : ℕ) :
    ∑ r ∈ Finset.range numGroups, ∑ j ∈ Finset.range groupSize, f (r * groupSize + j) =
      ∑ t ∈ Finset.range (numGroups * groupSize), f t := by
  induction numGroups with
  | zero => simp
  | succ m ih =>
    have h1 : (m + 1) * groupSize = m * groupSize + groupSize := by ring
    rw [Finset.sum_range_succ, ih, h1, Finset.sum_range_add]

lemma sum_range_cutoff (f : ℕ → ℚ) (inputLength total : ℕ) (h : inputLength ≤ total) :
    ∑ t ∈ Finset.range total, (if t < inputLength then f t else 0) =
      ∑ t ∈ Finset.range inputLength, f t := by
  calc ∑ t ∈ Finset.range total, (if t < inputLength then f t else 0)
      = ∑ t ∈ Finset.range inputLength, (if t < inputLength then f t else 0) := by
        refine (Finset.sum_subset (Finset.range_subset.mpr h) ?_).symm
        intro t ht ht2
        rw [Finset.mem_range] at ht2
        rw [if_neg ht2]
    _ = ∑ t ∈ Finset.range inputLength, f t := by
        apply Finset.sum_congr rfl
        intro t ht
        rw [Finset.mem_range] at ht
        rw [if_pos ht]

/-- Summed over a proper launch (`numGroups = ⌈inputLength / 2^k⌉`,
nonempty input), the `reduceBarrier` output slots carry the whole input
sum. -/
lemma reduceBarrier_pass_sum (input : ℕ → ℚ) (inputLength k numGroups : ℕ)
    (initL : ℕ → ℕ → ℚ) (results : ℕ → ℚ) (hN : 0 < inputLength)
    (hng : numGroups = (inputLength + 2 ^ k - 1) / 2 ^ k) :
    ∑ r ∈ Finset.range numGroups,
        reduceBarrier input inputLength (2 ^ k) numGroups initL results r =
      ∑ t ∈ Finset.range inputLength, input t := by
  have hpos : (1 : ℕ) ≤ 2 ^ k := Nat.one_le_two_pow
  have hdm := Nat.div_add_mod (inputLength - 1) (2 ^ k)
  have hmlt : (inputLength - 1) % 2 ^ k < 2 ^ k := Nat.mod_lt _ (by omega)
  have hng2 : numGroups = (inputLength - 1) / 2 ^ k + 1 := by
    have harg : inputLength + 2 ^ k - 1 = (inputLength - 1) + 1 * 2 ^ k := by omega
    rw [hng, harg, Nat.add_mul_div_right _ _ (by omega)]
  have hcover : inputLength ≤ numGroups * 2 ^ k := by
    rw [hng2]
    have : ((inputLength - 1) / 2 ^ k + 1) * 2 ^ k
        = 2 ^ k * ((inputLength - 1) / 2 ^ k) + 2 ^ k := by ring
    omega
  have hglt : ∀ r, r < numGroups → r * 2 ^ k < inputLength := by
    intro r hr
    have hrle : r ≤ (inputLength - 1) / 2 ^ k := by omega
    have : r * 2 ^ k ≤ ((inputLength - 1) / 2 ^ k) * 2 ^ k :=
      Nat.mul_le_mul_right _ hrle
    have h2 : ((inputLength - 1) / 2 ^ k) * 2 ^ k
        = 2 ^ k * ((inputLength - 1) / 2 ^ k) := by ring
    omega
  calc ∑ r ∈ Finset.range numGroups,
        reduceBarrier input inputLength (2 ^ k) numGroups initL results r
      = ∑ r ∈ Finset.range numGroups,
          ∑ j ∈ Finset.range (2 ^ k), tileVal input inputLength (2 ^ k) r j := by
        apply Finset.sum_congr rfl
        intro r hr
        rw [Finset.mem_range] at hr
        unfold reduceBarrier
        rw [if_pos ⟨hr, by omega⟩]
        exact reduceBarrierGroup_pow2 input inputLength k r (initL r) (hglt r hr)
    _ = ∑ t ∈ Finset.range (numGroups * 2 ^ k),
          (if t < inputLength then input t else 0) := by
        rw [← sum_range_mul_tiles (fun t => if t < inputLength then input t else 0)]
        apply Finset.sum_congr rfl
        intro r _
        apply Finset.sum_congr rfl
        intro j _
        unfold tileVal
        rfl
    _ = ∑ t ∈ Finset.range inputLength, input t := sum_range_cutoff _ _ _ hcover

/-!
## Groups entirely beyond the input range
-/

lemma loadSlice_out (input : ℕ → ℚ) (inputLength groupSize g : ℕ) (init : ℕ → ℚ)
    (h : inputLength ≤ g * groupSize) :
    loadSlice input inputLength groupSize g init = init := by
  funext j
  unfold loadSlice
  rw [if_neg (by omega)]

lemma fencedRound_out (inputLength groupSize g ac : ℕ) (s : ℕ → ℚ)
    (h : inputLength ≤ g * groupSize) :
    fencedRound inputLength groupSize g ac s = s := by
  funext j
  unfold fencedRound
  rw [if_neg (by omega)]

lemma simdRound_out (inputLength groupSize g ac : ℕ) (s : ℕ → ℚ)
    (h : inputLength ≤ g * groupSize) :
    simdRound inputLength groupSize g ac s = s := by
  funext j
  unfold simdRound
  rw [if_neg (by omega)]

lemma lockstepRound_out (inputLength groupSize simdWidth g ac : ℕ) (s : ℕ → ℚ)
    (h : inputLength ≤ g * groupSize) :
    lockstepRound inputLength groupSize simdWidth g ac s = s := by
  funext j
  unfold lockstepRound
  rw [if_neg (by omega)]

lemma reduceBarrierLoop_out (inputLength groupSize g : ℕ)
    (h : inputLength ≤ g * groupSize) :
    ∀ fuel ac : ℕ, ∀ s : ℕ → ℚ,
      reduceBarrierLoop inputLength groupSize g fuel ac s = s := by
  intro fuel
  induction fuel with
  | zero => intro ac s; rfl
  | succ f ih =>
    intro ac s
    cases ac with
    | zero => rfl
    | succ a =>
      rw [reduceBarrierLoop_succ _ _ _ _ _ _ (by omega), fencedRound_out _ _ _ _ _ h]
      exact ih _ _

lemma reduceSimdLoop_out (inputLength groupSize g : ℕ)
    (h : inputLength ≤ g * groupSize) :
    ∀ fuel ac : ℕ, ∀ s : ℕ → ℚ,
      reduceSimdLoop inputLength groupSize g fuel ac s = s := by
  intro fuel
  induction fuel with
  | zero => intro ac s; rfl
  | succ f ih =>
    intro ac s
    cases ac with
    | zero => rfl
    | succ a =>
      rw [reduceSimdLoop_succ _ _ _ _ _ _ (by omega), simdRound_out _ _ _ _ _ h]
      exact ih _ _

lemma hybridLockstepLoop_out (inputLength groupSize simdWidth g : ℕ)
    (h : inputLength ≤ g * groupSize) :
    ∀ fuel ac : ℕ, ∀ s : ℕ → ℚ,
      hybridLockstepLoop inputLength groupSize simdWidth g fuel ac s = s := by
  intro fuel
  induction fuel with
  | zero => intro ac s; rfl
  | succ f ih =>
    intro ac s
    cases ac with
    | zero => rfl
    | succ a =>
      rw [hybridLockstepLoop_succ _ _ _ _ _ _ _ (by omega), lockstepRound_out _ _ _ _ _ _ h]
      exact ih _ _

lemma hybridFencedLoop_out (inputLength groupSize simdWidth g : ℕ)
    (h : inputLength ≤ g * groupSize) :
    ∀ fuel ac : ℕ, ∀ s : ℕ → ℚ,
      (hybridFencedLoop inputLength groupSize simdWidth g fuel ac s).1 = s := by
  intro fuel
  induction fuel with
  | zero => intro ac s; rfl
  | succ f ih =>
    intro ac s
    by_cases hW : ac ≤ simdWidth
    · simp [hybridFencedLoop, hW]
    · rw [show hybridFencedLoop inputLength groupSize simdWidth g (f + 1) ac s =
          hybridFencedLoop inputLength groupSize simdWidth g f (ac / 2)
            (fencedRound inputLength groupSize g ac s) by
        simp [hybridFencedLoop, hW]]
      rw [fencedRound_out _ _ _ _ _ h]
      exact ih _ _

lemma reduceBarrierGroup_out (input : ℕ → ℚ) (inputLength groupSize g : ℕ) (init : ℕ → ℚ)
    (h : inputLength ≤ g * groupSize) :
    reduceBarrierGroup input inputLength groupSize g init = init 0 := by
  unfold reduceBarrierGroup reduceBarrierSlice
  rw [reduceBarrierLoop_out _ _ _ h, loadSlice_out _ _ _ _ _ h]

lemma reduceSimdGroup_out (input : ℕ → ℚ) (inputLength groupSize g : ℕ) (init : ℕ → ℚ)
    (h : inputLength ≤ g * groupSize) :
    reduceSimdGroup input inputLength groupSize g init = init 0 := by
  unfold reduceSimdGroup reduceSimdSlice
  rw [reduceSimdLoop_out _ _ _ h, loadSlice_out _ _ _ _ _ h]

lemma reduceHybridGroup_out (input : ℕ → ℚ) (inputLength groupSize simdWidth g : ℕ)
    (init : ℕ → ℚ) (h : inputLength ≤ g * groupSize) :
    reduceHybridGroup input inputLength groupSize simdWidth g init = init 0 := by
  unfold reduceHybridGroup reduceHybridSlice
  show hybridLockstepLoop inputLength groupSize simdWidth g groupSize
      (hybridFencedLoop inputLength groupSize simdWidth g groupSize (groupSize / 2)
        (loadSlice input inputLength groupSize g init)).2
      (hybridFencedLoop inputLength groupSize simdWidth g groupSize (groupSize / 2)
        (loadSlice input inputLength groupSize g init)).1 0 = init 0
  rw [hybridLockstepLoop_out _ _ _ _ h, hybridFencedLoop_out _ _ _ _ h,
    loadSlice_out _ _ _ _ _ h]

lemma loadEvents_out (inputLength groupSize g : ℕ) (h : inputLength ≤ g * groupSize) :
    loadEvents inputLength groupSize g = [] := by
  unfold loadEvents
  rw [List.filterMap_eq_nil_iff]
  intro i hi
  rw [List.mem_range] at hi
  rw [if_neg (by omega)]

/-!
## Trace membership characterizations
-/

lemma halveChain_bounds : ∀ fuel a x : ℕ, x ∈ halveChain fuel a → 0 < x ∧ x ≤ a := by
  intro fuel
  induction fuel with
  | zero => intro a x h; simp [halveChain] at h
  | succ f ih =>
    intro a x h
    cases a with
    | zero => simp [halveChain] at h
    | succ b =>
      rw [show halveChain (f + 1) (b + 1) = (b + 1) :: halveChain f ((b + 1) / 2) from rfl,
        List.mem_cons] at h
      rcases h with h | h
      · omega
      · have := ih _ _ h
        omega

lemma mem_acChain_bounds (groupSize x : ℕ) (h : x ∈ acChain groupSize) :
    0 < x ∧ 2 * x ≤ groupSize := by
  have := halveChain_bounds groupSize (groupSize / 2) x h
  omega

lemma load_mem_loadEvents (inputLength groupSize g i : ℕ) :
    GEvent.load i ∈ loadEvents inputLength groupSize g ↔
      i < groupSize ∧ g * groupSize + i < inputLength := by
  simp only [loadEvents, List.mem_filterMap, List.mem_range]
  constructor
  · rintro ⟨a, ha, h⟩
    split at h <;> simp_all
  · rintro ⟨h1, h2⟩
    exact ⟨i, h1, by rw [if_pos h2]⟩

lemma comb_mem_barrierTrace (inputLength groupSize g i ac : ℕ) :
    GEvent.comb i ac ∈ barrierTrace inputLength groupSize g ↔
      (ac ∈ acChain groupSize ∧ i < groupSize ∧ i < ac ∧
        g * groupSize + i + ac < inputLength) := by
  simp only [barrierTrace, loadEvents, fencedRoundEvents, List.mem_append, List.mem_flatMap,
    List.mem_filterMap, List.mem_range, List.mem_singleton]
  constructor
  · rintro (((h | h) | h) | h)
    · obtain ⟨a, _, ha⟩ := h
      split at ha <;> simp_all
    · simp_all
    · obtain ⟨a, ha, h⟩ := h
      rcases h with h | h
      · obtain ⟨b, hb, hb2⟩ := h
        split at hb2 <;> simp_all
      · simp_all
    · split at h <;> simp_all
  · rintro ⟨hac, hiG, hiac, hb⟩
    refine Or.inl (Or.inr ?_)
    exact ⟨ac, hac, Or.inl ⟨i, hiG, by rw [if_pos ⟨hiac, hb⟩]⟩⟩

lemma comb_mem_simdTrace (inputLength groupSize g i ac : ℕ) :
    GEvent.comb i ac ∈ simdTrace inputLength groupSize g ↔
      (ac ∈ acChain groupSize ∧ i < groupSize ∧
        g * groupSize + i + ac < inputLength) := by
  simp only [simdTrace, loadEvents, simdRoundEvents, List.mem_append, List.mem_flatMap,
    List.mem_filterMap, List.mem_range, List.mem_map]
  constructor
  · rintro ((h | h) | h)
    · obtain ⟨a, _, ha⟩ := h
      split at ha <;> simp_all
    · obtain ⟨a, ha, b, hb, hb2⟩ := h
      split at hb2 <;> simp_all
    · obtain ⟨a, _, ha⟩ := h
      simp_all
  · rintro ⟨hac, hiG, hb⟩
    refine Or.inl (Or.inr ?_)
    exact ⟨ac, hac, i, hiG, by rw [if_pos hb]⟩

lemma comb_mem_hybridTrace (inputLength groupSize simdWidth g i ac : ℕ) :
    GEvent.comb i ac ∈ hybridTrace inputLength groupSize simdWidth g ↔
      (ac ∈ acChain groupSize ∧ i < groupSize ∧
        g * groupSize + i + ac < inputLength ∧
        ((simdWidth < ac ∧ i < ac) ∨ (ac ≤ simdWidth ∧ i < simdWidth))) := by
  simp only [hybridTrace, loadEvents, fencedRoundEvents, lockstepRoundEvents,
    List.mem_append, List.mem_flatMap, List.mem_filterMap, List.mem_filter, List.mem_range,
    List.mem_singleton, decide_eq_true_eq]
  constructor
  · rintro (((((h | h) | h) | h) | h) | h)
    · obtain ⟨a, _, ha⟩ := h
      split at ha <;> simp_all
    · simp_all
    · obtain ⟨a, ⟨ha, haW⟩, h⟩ := h
      rcases h with h | h
      · obtain ⟨b, hb, hb2⟩ := h
        split at hb2 <;> simp_all
      · simp_all
    · obtain ⟨a, _, ha⟩ := h
      split at ha <;> simp_all
    · obtain ⟨a, ⟨ha, haW⟩, b, hb, hb2⟩ := h
      split at hb2 <;> simp_all
    · split at h <;> simp_all
  · rintro ⟨hac, hiG, hb, hcase⟩
    rcases hcase with ⟨hW, hiac⟩ | ⟨hW, hiW⟩
    · refine Or.inl (Or.inl (Or.inl (Or.inr ?_)))
      exact ⟨ac, ⟨hac, hW⟩, Or.inl ⟨i, hiG, by rw [if_pos ⟨hiac, hb⟩]⟩⟩
    · refine Or.inl (Or.inr ?_)
      exact ⟨ac, ⟨hac, hW⟩, i, hiG, by rw [if_pos ⟨hiW, hb⟩]⟩

lemma outWrite_mem_barrierTrace (inputLength groupSize g i : ℕ) :
    GEvent.outWrite i ∈ barrierTrace inputLength groupSize g ↔
      (i = 0 ∧ 0 < groupSize) := by
  simp only [barrierTrace, loadEvents, fencedRoundEvents, List.mem_append, List.mem_flatMap,
    List.mem_filterMap, List.mem_range, List.mem_singleton]
  constructor
  · rintro (((h | h) | h) | h)
    · obtain ⟨a, _, ha⟩ := h
      split at ha <;> simp_all
    · simp_all
    · obtain ⟨a, ha, h⟩ := h
      rcases h with h | h
      · obtain ⟨b, hb, hb2⟩ := h
        split at hb2 <;> simp_all
      · simp_all
    · split at h <;> simp_all
  · rintro ⟨h0, hG⟩
    subst h0
    refine Or.inr ?_
    rw [if_pos hG]
    simp

lemma outWrite_mem_simdTrace (inputLength groupSize g i : ℕ) :
    GEvent.outWrite i ∈ simdTrace inputLength groupSize g ↔ i < groupSize := by
  simp only [simdTrace, loadEvents, simdRoundEvents, List.mem_append, List.mem_flatMap,
    List.mem_filterMap, List.mem_range, List.mem_map]
  constructor
  · rintro ((h | h) | h)
    · obtain ⟨a, _, ha⟩ := h
      split at ha <;> simp_all
    · obtain ⟨a, ha, b, hb, hb2⟩ := h
      split at hb2 <;> simp_all
    · obtain ⟨a, ha, ha2⟩ := h
      simp_all
  · intro h
    exact Or.inr ⟨i, h, rfl⟩

lemma outWrite_mem_hybridTrace (inputLength groupSize simdWidth g i : ℕ) :
    GEvent.outWrite i ∈ hybridTrace inputLength groupSize simdWidth g ↔
      (i = 0 ∧ 0 < simdWidth ∧ 0 < groupSize) := by
  simp only [hybridTrace, loadEvents, fencedRoundEvents, lockstepRoundEvents,
    List.mem_append, List.mem_flatMap, List.mem_filterMap, List.mem_filter, List.mem_range,
    List.mem_singleton, decide_eq_true_eq]
  constructor
  · rintro (((((h | h) | h) | h) | h) | h)
    · obtain ⟨a, _, ha⟩ := h
      split at ha <;> simp_all
    · simp_all
    · obtain ⟨a, ha, h⟩ := h
      rcases h with h | h
      · obtain ⟨b, hb, hb2⟩ := h
        split at hb2 <;> simp_all
      · simp_all
    · obtain ⟨a, _, ha⟩ := h
      split at ha <;> simp_all
    · obtain ⟨a, ha, b, hb, hb2⟩ := h
      split at hb2 <;> simp_all
    · split at h <;> simp_all
  · rintro ⟨h0, hW, hG⟩
    subst h0
    refine Or.inr ?_
    rw [if_pos ⟨hW, hG⟩]
    simp

lemma load_mem_simdTrace (inputLength groupSize g i : ℕ) :
    GEvent.load i ∈ simdTrace inputLength groupSize g ↔
      (i < groupSize ∧ g * groupSize + i < inputLength) := by
  simp only [simdTrace, List.mem_append, List.mem_flatMap, List.mem_map]
  constructor
  · rintro ((h | h) | h)
    · exact (load_mem_loadEvents inputLength groupSize g i).mp h
    · obtain ⟨a, ha, hb⟩ := h
      simp only [simdRoundEvents, List.mem_filterMap, List.mem_range] at hb
      obtain ⟨b, hb1, hb2⟩ := hb
      split at hb2 <;> simp_all
    · obtain ⟨a, _, ha⟩ := h
      simp_all
  · intro h
    exact Or.inl (Or.inl ((load_mem_loadEvents inputLength groupSize g i).mpr h))

/-!
## Positional structure of `hybridTrace`

Everything up to and including the last event of the fenced phase is
followed by a barrier event (each fenced round ends with one, as does the
copy-in); no event of the unfenced tail is.
-/

lemma fencedFlat_split (inputLength groupSize g : ℕ) :
    ∀ (l : List ℕ) (pre : List GEvent),
      ∃ P : List GEvent,
        pre ++ GEvent.barrierEv :: l.flatMap (fencedRoundEvents inputLength groupSize g)
          = P ++ [GEvent.barrierEv] := by
  intro l
  induction l with
  | nil => intro pre; exact ⟨pre, by simp⟩
  | cons c cs ih =>
    intro pre
    obtain ⟨P, hP⟩ := ih (pre ++ GEvent.barrierEv ::
      ((List.range groupSize).filterMap fun i =>
        if i < c ∧ g * groupSize + i + c < inputLength then some (.comb i c) else none))
    refine ⟨P, ?_⟩
    rw [← hP, List.flatMap_cons]
    simp only [fencedRoundEvents, List.append_assoc, List.cons_append, List.singleton_append,
      List.nil_append]

lemma hybridTrace_decomp (inputLength groupSize simdWidth g : ℕ) :
    ∃ P : List GEvent,
      hybridTrace inputLength groupSize simdWidth g = (P ++ [GEvent.barrierEv]) ++
        (((List.range groupSize).filterMap fun i =>
            if simdWidth ≤ i then some (GEvent.exitEv i) else none)
          ++ (((acChain groupSize).filter (fun ac => ac ≤ simdWidth)).flatMap
              (lockstepRoundEvents inputLength groupSize simdWidth g)
            ++ (if 0 < simdWidth ∧ 0 < groupSize then [GEvent.outWrite 0] else []))) := by
  obtain ⟨P, hP⟩ := fencedFlat_split inputLength groupSize g
    ((acChain groupSize).filter (fun ac => simdWidth < ac)) (loadEvents inputLength groupSize g)
  refine ⟨P, ?_⟩
  rw [← hP]
  unfold hybridTrace
  simp only [List.append_assoc, List.cons_append, List.singleton_append, List.nil_append]

lemma comb_mem_hybridTail (inputLength groupSize simdWidth g i ac : ℕ)
    (h : GEvent.comb i ac ∈
      ((List.range groupSize).filterMap fun j =>
          if simdWidth ≤ j then some (GEvent.exitEv j) else none)
        ++ (((acChain groupSize).filter (fun a => a ≤ simdWidth)).flatMap
            (lockstepRoundEvents inputLength groupSize simdWidth g)
          ++ (if 0 < simdWidth ∧ 0 < groupSize then [GEvent.outWrite 0] else []))) :
    ac ≤ simdWidth ∧ i < simdWidth ∧ i < groupSize ∧
      g * groupSize + i + ac < inputLength := by
  simp only [lockstepRoundEvents, List.mem_append, List.mem_flatMap, List.mem_filterMap,
    List.mem_filter, List.mem_range, decide_eq_true_eq] at h
  rcases h with h | h | h
  · obtain ⟨a, _, ha⟩ := h
    split at ha <;> simp_all
  · obtain ⟨a, ⟨ha, haW⟩, b, hb, hb2⟩ := h
    split at hb2 <;> simp_all
  · split at h <;> simp_all

/-!
## Claim theorems
-/

/-- C1 counterexample: `reduceBarrier` is not correct for arbitrary group
sizes.  With group size 3 (not a power of two), input `[1, 1, 1]` and one
group, the halving schedule (counter 1 only) never adds slot 2, so the
group writes 2 while its tile sums to 3. -/
theorem reduceBarrier_any_size_counterexample :
    reduceBarrierGroup (fun _ => (1 : ℚ)) 3 3 0 (fun _ => 0) = 2 ∧
    (∑ j ∈ Finset.range 3, tileVal (fun _ => (1 : ℚ)) 3 3 0 j) = 3 ∧
    (2 : ℚ) ≠ 3 := by
  refine ⟨?_, ?_, by norm_num⟩
  · norm_num [reduceBarrierGroup, reduceBarrierSlice, reduceBarrierLoop, fencedRound, loadSlice]
  · rw [Finset.sum_range_succ, Finset.sum_range_succ, Finset.sum_range_succ,
      Finset.sum_range_zero]
    norm_num [tileVal]

/-- C1 (amended): for every input, every power-of-two group size, and
every group whose tile holds at least one in-range element, the output
slot written by `reduceBarrier` equals the sum of the in-range elements of
that group's tile; in particular input `[1..8]` with one group of size 8
yields output `[36]`. -/
theorem reduceBarrier_tile_sum :
    (∀ (input : ℕ → ℚ) (inputLength k g : ℕ) (init : ℕ → ℚ),
      g * 2 ^ k < inputLength →
      reduceBarrierGroup input inputLength (2 ^ k) g init =
        ∑ j ∈ Finset.range (2 ^ k), tileVal input inputLength (2 ^ k) g j) ∧
    reduceBarrier (fun j => (j + 1 : ℚ)) 8 8 1 (fun _ _ => 0) (fun _ => 0) 0 = 36 := by
  constructor
  · intro input inputLength k g init hg
    exact reduceBarrierGroup_pow2 input inputLength k g init hg
  · norm_num [reduceBarrier, reduceBarrierGroup, reduceBarrierSlice, reduceBarrierLoop,
      fencedRound, loadSlice]

/-- Witness for C1's theorem at a concrete input (`k = 2`, tile partially
in range). -/
theorem reduceBarrier_tile_sum_witness :
    0 * 2 ^ 2 < 5 ∧
    reduceBarrierGroup (fun j => (j + 1 : ℚ)) 5 (2 ^ 2) 0 (fun _ => 0) =
      ∑ j ∈ Finset.range (2 ^ 2), tileVal (fun j => (j + 1 : ℚ)) 5 (2 ^ 2) 0 j :=
  ⟨by norm_num,
    reduceBarrier_tile_sum.1 (fun j => (j + 1 : ℚ)) 5 2 0 (fun _ => 0) (by norm_num)⟩

/-- C2 counterexample: the pass-level sum identity fails for a non-power-
of-two group size.  Group size 5, input `[1, 1, 1, 1, 1]`, one group
(a proper launch): the single output slot holds 4, the input sums to 5. -/
theorem reduceBarrier_pass_sum_counterexample :
    (∑ r ∈ Finset.range 1,
        reduceBarrier (fun _ => (1 : ℚ)) 5 5 1 (fun _ _ => 0) (fun _ => 0) r) = 4 ∧
    (∑ t ∈ Finset.range 5, (1 : ℚ)) = 5 ∧
    (4 : ℚ) ≠ 5 := by
  refine ⟨?_, ?_, by norm_num⟩
  · norm_num [reduceBarrier, reduceBarrierGroup, reduceBarrierSlice, reduceBarrierLoop,
      fencedRound, loadSlice]
  · norm_num [Finset.sum_range_succ]

/-- C2 (amended): for any input sequence of `inputLength` values and any
power-of-two group size, the sum over all output slots of a proper
`reduceBarrier` launch (`numGroups = ⌈inputLength / 2^k⌉`) equals the
exact input sum; the 16-input group-size-4 scenario yields the four tile
sums `[10, 26, 42, 58]`, and a second pass over them yields the grand
total 136. -/
theorem reduceBarrier_pass_sum_pow2 :
    (∀ (input : ℕ → ℚ) (inputLength k numGroups : ℕ)
        (initL : ℕ → ℕ → ℚ) (results : ℕ → ℚ),
      0 < inputLength → numGroups = (inputLength + 2 ^ k - 1) / 2 ^ k →
      ∑ r ∈ Finset.range numGroups,
          reduceBarrier input inputLength (2 ^ k) numGroups initL results r =
        ∑ t ∈ Finset.range inputLength, input t) ∧
    (reduceBarrier (fun j => (j + 1 : ℚ)) 16 4 4 (fun _ _ => 0) (fun _ => 0) 0 = 10 ∧
      reduceBarrier (fun j => (j + 1 : ℚ)) 16 4 4 (fun _ _ => 0) (fun _ => 0) 1 = 26 ∧
      reduceBarrier (fun j => (j + 1 : ℚ)) 16 4 4 (fun _ _ => 0) (fun _ => 0) 2 = 42 ∧
      reduceBarrier (fun j => (j + 1 : ℚ)) 16 4 4 (fun _ _ => 0) (fun _ => 0) 3 = 58) ∧
    reduceBarrier (reduceBarrier (fun j => (j + 1 : ℚ)) 16 4 4 (fun _ _ => 0) (fun _ => 0))
        4 4 1 (fun _ _ => 0) (fun _ => 0) 0 = 136 ∧
    (∑ t ∈ Finset.range 16, ((t : ℚ) + 1)) = 136 := by
  refine ⟨?_, ⟨?_, ?_, ?_, ?_⟩, ?_, ?_⟩
  · intro input inputLength k numGroups initL results hN hng
    exact reduceBarrier_pass_sum input inputLength k numGroups initL results hN hng
  · norm_num [reduceBarrier, reduceBarrierGroup, reduceBarrierSlice, reduceBarrierLoop,
      fencedRound, loadSlice]
  · norm_num [reduceBarrier, reduceBarrierGroup, reduceBarrierSlice, reduceBarrierLoop,
      fencedRound, loadSlice]
  · norm_num [reduceBarrier, reduceBarrierGroup, reduceBarrierSlice, reduceBarrierLoop,
      fencedRound, loadSlice]
  · norm_num [reduceBarrier, reduceBarrierGroup, reduceBarrierSlice, reduceBarrierLoop,
      fencedRound, loadSlice]
  · norm_num [reduceBarrier, reduceBarrierGroup, reduceBarrierSlice, reduceBarrierLoop,
      fencedRound, loadSlice]
  · norm_num [Finset.sum_range_succ]

/-- Witness for C2's theorem: 5 inputs, group size 4, 2 groups. -/
theorem reduceBarrier_pass_sum_pow2_witness :
    (0 < 5 ∧ 2 = (5 + 2 ^ 2 - 1) / 2 ^ 2) ∧
    ∑ r ∈ Finset.range 2,
        reduceBarrier (fun _ => (1 : ℚ)) 5 (2 ^ 2) 2 (fun _ _ => 0) (fun _ => 0) r =
      ∑ t ∈ Finset.range 5, (1 : ℚ) :=
  ⟨⟨by norm_num, by norm_num⟩,
    reduceBarrier_pass_sum_pow2.1 (fun _ => (1 : ℚ)) 5 2 2 (fun _ _ => 0) (fun _ => 0)
      (by norm_num) (by norm_num)⟩

/-- C3: when the `reduceSimd` precondition `groupSize ≤ simdWidth` holds
(the other variants need none), all three kernels write identical values
to every output slot, for every input, input length, launch size, initial
scratch contents and prior results contents. -/
theorem reduce_variants_agree (input : ℕ → ℚ)
    (inputLength groupSize simdWidth numGroups : ℕ)
    (initL : ℕ → ℕ → ℚ) (results : ℕ → ℚ) (hGW : groupSize ≤ simdWidth) :
    reduceSimd input inputLength groupSize numGroups initL results =
      reduceBarrier input inputLength groupSize numGroups initL results ∧
    reduceHybrid input inputLength groupSize simdWidth numGroups initL results =
      reduceBarrier input inputLength groupSize numGroups initL results := by
  constructor
  · funext r
    unfold reduceSimd reduceBarrier
    by_cases h : r < numGroups ∧ 0 < groupSize
    · rw [if_pos h, if_pos h, reduceSimdGroup_eq_barrier]
    · rw [if_neg h, if_neg h]
  · funext r
    unfold reduceHybrid reduceBarrier
    by_cases h : r < numGroups ∧ 0 < groupSize
    · rw [if_pos ⟨h.1, h.2, by omega⟩, if_pos h, reduceHybridGroup_eq_barrier]
    · rw [if_neg (by tauto), if_neg h]

/-- Witness for C3's theorem: 8 inputs, group size 4, lockstep width 8,
2 groups. -/
theorem reduce_variants_agree_witness :
    4 ≤ 8 ∧
    (reduceSimd (fun j => (j : ℚ)) 8 4 2 (fun _ _ => 0) (fun _ => 0) =
        reduceBarrier (fun j => (j : ℚ)) 8 4 2 (fun _ _ => 0) (fun _ => 0) ∧
      reduceHybrid (fun j => (j : ℚ)) 8 4 8 2 (fun _ _ => 0) (fun _ => 0) =
        reduceBarrier (fun j => (j : ℚ)) 8 4 2 (fun _ _ => 0) (fun _ => 0)) :=
  ⟨by norm_num,
    reduce_variants_agree (fun j => (j : ℚ)) 8 4 8 2 (fun _ _ => 0) (fun _ => 0) (by norm_num)⟩

/-- C4 counterexample: `reduceSimd`'s combine guard is not the same as
`reduceBarrier`'s.  In a 2-group launch (8 inputs, group size 4), thread 3
of group 0 passes the guard `globalIndex + activeCount < inputLength` at
counter 2 and reads source slot `3 + 2 = 5`, outside the group's 4-slot
scratch buffer. -/
theorem reduceSimd_combine_guard_counterexample :
    GEvent.comb 3 2 ∈ simdTrace 8 4 0 ∧ ¬ (3 + 2 < 4) := by
  exact ⟨by decide, by decide⟩

/-- C4 (amended): every combine of `reduceBarrier` reads as its source an
in-buffer slot that was loaded; the combines of `reduceSimd` and
`reduceHybrid` satisfy the same property only under the extra condition
that the group's tile reaches the end of the input
(`inputLength ≤ (g+1) * groupSize`, e.g. the last group of a proper
launch, or any single-group launch) — the counterexample shows the
unguarded variants violate it in general multi-group launches. -/
theorem combine_sources_in_bounds (inputLength groupSize simdWidth g i ac : ℕ) :
    (GEvent.comb i ac ∈ barrierTrace inputLength groupSize g →
      i + ac < groupSize ∧
        GEvent.load (i + ac) ∈ loadEvents inputLength groupSize g) ∧
    (inputLength ≤ (g + 1) * groupSize →
      GEvent.comb i ac ∈ simdTrace inputLength groupSize g →
        i + ac < groupSize ∧
          GEvent.load (i + ac) ∈ loadEvents inputLength groupSize g) ∧
    (inputLength ≤ (g + 1) * groupSize →
      GEvent.comb i ac ∈ hybridTrace inputLength groupSize simdWidth g →
        i + ac < groupSize ∧
          GEvent.load (i + ac) ∈ loadEvents inputLength groupSize g) := by
  have hmul : (g + 1) * groupSize = g * groupSize + groupSize := by ring
  refine ⟨?_, ?_, ?_⟩
  · intro h
    rw [comb_mem_barrierTrace] at h
    obtain ⟨hac, hiG, hiac, hb⟩ := h
    have hbd := mem_acChain_bounds groupSize ac hac
    refine ⟨by omega, ?_⟩
    rw [load_mem_loadEvents]
    omega
  · intro hN h
    rw [comb_mem_simdTrace] at h
    obtain ⟨hac, hiG, hb⟩ := h
    refine ⟨by omega, ?_⟩
    rw [load_mem_loadEvents]
    omega
  · intro hN h
    rw [comb_mem_hybridTrace] at h
    obtain ⟨hac, hiG, hb, _⟩ := h
    refine ⟨by omega, ?_⟩
    rw [load_mem_loadEvents]
    omega

/-- Witness for C4's theorem: a fenced combine of `reduceBarrier` on a
partial tile, plus the last-group condition for the unfenced variants. -/
theorem combine_sources_in_bounds_witness :
    (GEvent.comb 0 4 ∈ barrierTrace 5 8 0) ∧
    (0 + 4 < 8 ∧ GEvent.load (0 + 4) ∈ loadEvents 5 8 0) :=
  ⟨by decide, (combine_sources_in_bounds 5 8 4 0 0 4).1 (by decide)⟩

/-- C5 counterexample: in `reduceSimd` the final store to the results
buffer is unconditional, so a thread with local index `1 ≠ 0` also
executes it (8 inputs, one group of size 8). -/
theorem reduceSimd_output_writers_counterexample :
    GEvent.outWrite 1 ∈ simdTrace 8 8 0 ∧ (1 : ℕ) ≠ 0 :=
  ⟨by decide, by decide⟩

/-- C5 (amended): in `reduceBarrier` and `reduceHybrid` exactly the thread
with local index 0 stores the group result (in `reduceHybrid` only when it
survives the phase transition, i.e. `0 < simdWidth`); in `reduceSimd`
every thread of the group executes the final store (all storing the same
final slot-0 value, per `reduceSimdGroup`). -/
theorem output_writer_sets (inputLength groupSize simdWidth g i : ℕ) :
    (GEvent.outWrite i ∈ barrierTrace inputLength groupSize g ↔
      (i = 0 ∧ 0 < groupSize)) ∧
    (GEvent.outWrite i ∈ hybridTrace inputLength groupSize simdWidth g ↔
      (i = 0 ∧ 0 < simdWidth ∧ 0 < groupSize)) ∧
    (GEvent.outWrite i ∈ simdTrace inputLength groupSize g ↔ i < groupSize) :=
  ⟨outWrite_mem_barrierTrace inputLength groupSize g i,
    outWrite_mem_hybridTrace inputLength groupSize simdWidth g i,
    outWrite_mem_simdTrace inputLength groupSize g i⟩

/-- C6 counterexample: the claim that `reduceSimd`'s initial load step is
unguarded is false — the source guards it with
`if (globalIndex < inputLength)`.  With 4 inputs and one group of size 8,
thread 5 (global index 5 ≥ 4) performs no load event and its scratch slot
keeps its arbitrary initial contents. -/
theorem reduceSimd_load_unguarded_counterexample :
    GEvent.load 5 ∉ simdTrace 4 8 0 ∧ (5 < 8 ∧ ¬ (0 * 8 + 5 < 4)) ∧
    loadSlice (fun _ => (1 : ℚ)) 4 8 0 (fun _ => 0) 5 = 0 := by
  refine ⟨by decide, by decide, ?_⟩
  norm_num [loadSlice]

/-- C6 (amended): `reduceSimd`'s initial load is bounds-checked exactly
like the other variants': a thread whose global index is `≥ inputLength`
issues no load and leaves its scratch slot untouched. -/
theorem reduceSimd_load_guarded (input : ℕ → ℚ) (inputLength groupSize g i : ℕ)
    (init : ℕ → ℚ) (h : inputLength ≤ g * groupSize + i) :
    GEvent.load i ∉ simdTrace inputLength groupSize g ∧
    loadSlice input inputLength groupSize g init i = init i := by
  constructor
  · rw [load_mem_simdTrace]
    rintro ⟨h1, h2⟩
    omega
  · unfold loadSlice
    rw [if_neg (by omega)]

/-- Witness for C6's theorem at thread 6 of a size-8 group, 4 inputs. -/
theorem reduceSimd_load_guarded_witness :
    4 ≤ 0 * 8 + 6 ∧
    (GEvent.load 6 ∉ simdTrace 4 8 0 ∧
      loadSlice (fun _ => (2 : ℚ)) 4 8 0 (fun _ => 7) 6 = 7) :=
  ⟨by norm_num,
    reduceSimd_load_guarded (fun _ => (2 : ℚ)) 4 8 0 6 (fun _ => 7) (by norm_num)⟩

lemma hybridTrace_decompPB (inputLength groupSize simdWidth g : ℕ) :
    ∃ P B : List GEvent,
      hybridTrace inputLength groupSize simdWidth g = (P ++ [GEvent.barrierEv]) ++ B ∧
      ∀ i ac, GEvent.comb i ac ∈ B →
        ac ≤ simdWidth ∧ i < simdWidth ∧ i < groupSize ∧
          g * groupSize + i + ac < inputLength := by
  obtain ⟨P, hP⟩ := hybridTrace_decomp inputLength groupSize simdWidth g
  refine ⟨P, _, hP, ?_⟩
  intro i ac h
  exact comb_mem_hybridTail inputLength groupSize simdWidth g i ac h

/-- C7: in `reduceHybrid`, every combine issued while the counter exceeds
the lockstep width is followed by a group-wide barrier event, and every
combine with no later barrier runs with counter `≤ simdWidth` in a thread
with local index `< simdWidth` (and `< groupSize`); moreover a thread with
local index `≥ simdWidth` only ever combines in the fenced phase
(counter `> simdWidth`) and never stores to the results buffer — it takes
no part in the reduction after the phase transition. -/
theorem reduceHybrid_phase_discipline (inputLength groupSize simdWidth g : ℕ) :
    (∀ n i ac : ℕ,
      (hybridTrace inputLength groupSize simdWidth g)[n]? = some (GEvent.comb i ac) →
      (simdWidth < ac → ∃ m : ℕ, n < m ∧
          (hybridTrace inputLength groupSize simdWidth g)[m]? = some GEvent.barrierEv) ∧
      ((∀ m : ℕ, n < m →
          (hybridTrace inputLength groupSize simdWidth g)[m]? ≠ some GEvent.barrierEv) →
        ac ≤ simdWidth ∧ i < simdWidth ∧ i < groupSize)) ∧
    (∀ i, simdWidth ≤ i →
      (∀ ac, GEvent.comb i ac ∈ hybridTrace inputLength groupSize simdWidth g →
        simdWidth < ac) ∧
      GEvent.outWrite i ∉ hybridTrace inputLength groupSize simdWidth g) := by
  obtain ⟨P, B, hPB, hB⟩ := hybridTrace_decompPB inputLength groupSize simdWidth g
  have hAlen : (P ++ [GEvent.barrierEv]).length = P.length + 1 := by simp
  have hbar : (hybridTrace inputLength groupSize simdWidth g)[P.length]?
      = some GEvent.barrierEv := by
    rw [hPB, List.getElem?_append_left (by simp)]
    rw [List.getElem?_append_right (le_refl P.length)]
    simp
  constructor
  · intro n i ac hn
    have hcaseB : (P ++ [GEvent.barrierEv]).length ≤ n →
        ac ≤ simdWidth ∧ i < simdWidth ∧ i < groupSize ∧
          g * groupSize + i + ac < inputLength := by
      intro hlen
      rw [hPB, List.getElem?_append_right hlen] at hn
      exact hB i ac (List.getElem?_mem hn)
    have hcaseA : n < (P ++ [GEvent.barrierEv]).length → n < P.length := by
      intro hlen
      have hne : n ≠ P.length := by
        intro he
        rw [he, hbar] at hn
        simp at hn
      omega
    constructor
    · intro hW
      by_cases hlen : n < (P ++ [GEvent.barrierEv]).length
      · exact ⟨P.length, hcaseA hlen, hbar⟩
      · have := hcaseB (by omega)
        omega
    · intro hnone
      by_cases hlen : n < (P ++ [GEvent.barrierEv]).length
      · exact absurd hbar (hnone P.length (hcaseA hlen))
      · have h := hcaseB (by omega)
        exact ⟨h.1, h.2.1, h.2.2.1⟩
  · intro i hi
    constructor
    · intro ac hmem
      rw [comb_mem_hybridTrace] at hmem
      obtain ⟨_, _, _, hcase⟩ := hmem
      rcases hcase with ⟨h1, _⟩ | ⟨_, h2⟩
      · exact h1
      · omega
    · rw [outWrite_mem_hybridTrace]
      rintro ⟨h0, hW, _⟩
      omega

/-- Witness for C7's theorem: 16 inputs, group size 8, lockstep width 2;
position 9 of the trace holds the fenced combine of thread 0 at counter 4,
and thread 5 (`≥ 2`) is checked for the transition property. -/
theorem reduceHybrid_phase_discipline_witness :
    ((hybridTrace 16 8 2 0)[9]? = some (GEvent.comb 0 4) ∧ 2 ≤ 5) ∧
    ((2 < 4 → ∃ m : ℕ, 9 < m ∧ (hybridTrace 16 8 2 0)[m]? = some GEvent.barrierEv) ∧
      ((∀ m : ℕ, 9 < m → (hybridTrace 16 8 2 0)[m]? ≠ some GEvent.barrierEv) →
        4 ≤ 2 ∧ 0 < 2 ∧ 0 < 8)) ∧
    ((∀ ac, GEvent.comb 5 ac ∈ hybridTrace 16 8 2 0 → 2 < ac) ∧
      GEvent.outWrite 5 ∉ hybridTrace 16 8 2 0) :=
  ⟨⟨by decide, by decide⟩,
    (reduceHybrid_phase_discipline 16 8 2 0).1 9 0 4 (by decide),
    (reduceHybrid_phase_discipline 16 8 2 0).2 5 (by decide)⟩

/-- C8 counterexample: boundary handling is not correct for arbitrary
group sizes.  With group size 6 and 5 inputs (`5 % 6 ≠ 0`), all ones, the
halving schedule `[3, 1]` never folds slot 2 into slot 0: the group writes
4 while the valid elements sum to 5. -/
theorem reduceBarrier_boundary_counterexample :
    reduceBarrierGroup (fun _ => (1 : ℚ)) 5 6 0 (fun _ => 0) = 4 ∧
    (∑ j ∈ Finset.range (5 - 0 * 6), (1 : ℚ)) = 5 ∧
    (4 : ℚ) ≠ 5 ∧ 5 % 6 ≠ 0 := by
  refine ⟨?_, ?_, by norm_num, by norm_num⟩
  · norm_num [reduceBarrierGroup, reduceBarrierSlice, reduceBarrierLoop, fencedRound, loadSlice]
  · norm_num [Finset.sum_range_succ]

/-- C8 (amended): for power-of-two group sizes, a group whose tile is only
partially in range (`g * 2^k < inputLength < (g+1) * 2^k`, as happens when
`inputLength` is not a multiple of the group size) reduces to the sum of
exactly the in-range elements of its tile: out-of-range threads contribute
nothing.  In particular `[1..5]` with group size 8 yields `[15]`. -/
theorem reduceBarrier_boundary_pow2 :
    (∀ (input : ℕ → ℚ) (inputLength k g : ℕ) (init : ℕ → ℚ),
      g * 2 ^ k < inputLength → inputLength < (g + 1) * 2 ^ k →
      reduceBarrierGroup input inputLength (2 ^ k) g init =
        ∑ j ∈ Finset.range (inputLength - g * 2 ^ k), input (g * 2 ^ k + j)) ∧
    reduceBarrier (fun j => (j + 1 : ℚ)) 5 8 1 (fun _ _ => 0) (fun _ => 0) 0 = 15 := by
  constructor
  · intro input inputLength k g init hg hpartial
    rw [reduceBarrierGroup_pow2 input inputLength k g init hg,
      tileVal_sum_eq_portion input inputLength (2 ^ k) g hg]
    have hmul : (g + 1) * 2 ^ k = g * 2 ^ k + 2 ^ k := by ring
    rw [min_eq_right (by omega)]
  · norm_num [reduceBarrier, reduceBarrierGroup, reduceBarrierSlice, reduceBarrierLoop,
      fencedRound, loadSlice]

/-- Witness for C8's theorem: 5 inputs, one group of size `2^3 = 8`. -/
theorem reduceBarrier_boundary_pow2_witness :
    (0 * 2 ^ 3 < 5 ∧ 5 < (0 + 1) * 2 ^ 3) ∧
    reduceBarrierGroup (fun j => (j + 1 : ℚ)) 5 (2 ^ 3) 0 (fun _ => 0) =
      ∑ j ∈ Finset.range (5 - 0 * 2 ^ 3), ((0 * 2 ^ 3 + j : ℕ) + 1 : ℚ) :=
  ⟨⟨by norm_num, by norm_num⟩,
    reduceBarrier_boundary_pow2.1 (fun j => (j + 1 : ℚ)) 5 3 0 (fun _ => 0)
      (by norm_num) (by norm_num)⟩

/-- C9: in `getSimdWidth`, the thread with local index 0 writes the
hardware lockstep width to output slot 0, and every thread with a nonzero
local index performs no write at all. -/
theorem getSimdWidth_spec (w i : ℕ) :
    (getSimdWidth w i ≠ none ↔ i = 0) ∧ getSimdWidth w 0 = some (0, w) := by
  constructor
  · unfold getSimdWidth
    by_cases h : i = 0
    · subst h
      simp
    · simp [h]
  · rfl

/-- C10: a launched group all of whose threads have global index
`≥ inputLength` issues no load event, yet still stores to its results
slot (in every variant; in `reduceHybrid` thread 0 must survive the
transition, i.e. `0 < simdWidth`), and the value stored is scratch
slot 0's arbitrary initial (uninitialized) contents. -/
theorem out_of_range_group_writes_uninit (input : ℕ → ℚ)
    (inputLength groupSize simdWidth numGroups g : ℕ)
    (initL : ℕ → ℕ → ℚ) (results : ℕ → ℚ)
    (hout : inputLength ≤ g * groupSize) (hg : g < numGroups)
    (hG : 0 < groupSize) (hW : 0 < simdWidth) :
    reduceBarrier input inputLength groupSize numGroups initL results g = initL g 0 ∧
    reduceSimd input inputLength groupSize numGroups initL results g = initL g 0 ∧
    reduceHybrid input inputLength groupSize simdWidth numGroups initL results g
      = initL g 0 ∧
    loadEvents inputLength groupSize g = [] ∧
    GEvent.outWrite 0 ∈ barrierTrace inputLength groupSize g ∧
    GEvent.outWrite 0 ∈ simdTrace inputLength groupSize g ∧
    GEvent.outWrite 0 ∈ hybridTrace inputLength groupSize simdWidth g := by
  refine ⟨?_, ?_, ?_, loadEvents_out inputLength groupSize g hout, ?_, ?_, ?_⟩
  · unfold reduceBarrier
    rw [if_pos ⟨hg, hG⟩]
    exact reduceBarrierGroup_out input inputLength groupSize g (initL g) hout
  · unfold reduceSimd
    rw [if_pos ⟨hg, hG⟩]
    exact reduceSimdGroup_out input inputLength groupSize g (initL g) hout
  · unfold reduceHybrid
    rw [if_pos ⟨hg, hG, hW⟩]
    exact reduceHybridGroup_out input inputLength groupSize simdWidth g (initL g) hout
  · exact (outWrite_mem_barrierTrace inputLength groupSize g 0).mpr ⟨rfl, hG⟩
  · exact (outWrite_mem_simdTrace inputLength groupSize g 0).mpr hG
  · exact (outWrite_mem_hybridTrace inputLength groupSize simdWidth g 0).mpr ⟨rfl, hW, hG⟩

/-- Witness for C10's theorem: 3 inputs, group size 4, group 1 of 2 is
entirely out of range; its scratch was seeded with 9 and the results slot
receives that 9. -/
theorem out_of_range_group_writes_uninit_witness :
    (3 ≤ 1 * 4 ∧ 1 < 2 ∧ 0 < 4 ∧ 0 < 2) ∧
    (reduceBarrier (fun _ => (1 : ℚ)) 3 4 2 (fun _ _ => 9) (fun _ => 0) 1 = 9 ∧
      reduceSimd (fun _ => (1 : ℚ)) 3 4 2 (fun _ _ => 9) (fun _ => 0) 1 = 9 ∧
      reduceHybrid (fun _ => (1 : ℚ)) 3 4 2 2 (fun _ _ => 9) (fun _ => 0) 1 = 9 ∧
      loadEvents 3 4 1 = [] ∧
      GEvent.outWrite 0 ∈ barrierTrace 3 4 1 ∧
      GEvent.outWrite 0 ∈ simdTrace 3 4 1 ∧
      GEvent.outWrite 0 ∈ hybridTrace 3 4 2 1) :=
  ⟨⟨by norm_num, by norm_num, by norm_num, by norm_num⟩,
    out_of_range_group_writes_uninit (fun _ => (1 : ℚ)) 3 4 2 2 1 (fun _ _ => 9)
      (fun _ => 0) (by norm_num) (by norm_num) (by norm_num) (by norm_num)⟩
